import Mathlib

/-!
Verification of the atomic file writer `safe_write` (src/lib.rs).

The Rust function is shallowly embedded as a deterministic sequence of
filesystem steps over an explicit filesystem state.  Every fallible
primitive (directory creation, file removal, exclusive creation, write,
flush, fsync, target removal, rename) is driven by a failure oracle so
that a failure at any step of the protocol can be expressed.  The
`cfg(windows)` branch is modelled by a boolean platform parameter.
-/

namespace SafeWrite

/-- File contents: a byte sequence. -/
abbrev Bytes := List Nat

/-- A filesystem path with a file name: `dirs` is the parent directory as a
list of components (the empty list plays the role of the current working
directory, Rust's Path.parent().unwrap_or(Path.new ".")), and `base` is the
final file-name component as a list of characters. -/
structure RPath where
  dirs : List String
  base : List Char
deriving DecidableEq, Repr

/-- Index of the last occurrence of the dot character in a file name, if
any.  Mirrors the search that Rust's Path extension handling performs. -/
def lastDotIdx : List Char → Option Nat
  | [] => none
  | c :: cs =>
    match lastDotIdx cs with
    | some i => some (i + 1)
    | none => if c = '.' then some 0 else none

/-- Rust Path.file_stem on a file name: everything before the last dot; a
name without a dot, or whose only dot is the leading one (hidden file), is
its own stem. -/
def rustFileStem (cs : List Char) : List Char :=
  match lastDotIdx cs with
  | none => cs
  | some 0 => cs
  | some i => cs.take i

/-- Rust Path.extension on a file name: the part after the last dot, when
that dot is neither absent nor leading. -/
def rustExtension (cs : List Char) : Option (List Char) :=
  match lastDotIdx cs with
  | none => none
  | some 0 => none
  | some i => some (cs.drop (i + 1))

/-- Rust Path.with_extension "tmp" applied to the file name: the stem with
the constant marker appended after a dot. -/
def withTmpExt (cs : List Char) : List Char :=
  rustFileStem cs ++ ('.' :: "tmp".toList)

/-- The temporary artifact path derived in safe_write:
path.with_extension("tmp"), in the same parent directory. -/
def tempPathOf (p : RPath) : RPath :=
  ⟨p.dirs, withTmpExt p.base⟩

/-- The parent directory used by safe_write:
path.parent().unwrap_or_else(Path.new ".") is the dirs component, with the
empty list standing for the current working directory. -/
def parentOf (p : RPath) : List String :=
  p.dirs

/-- Filesystem state: which regular files exist (with their contents) and
which directories exist.  Directories are identified by their component
lists. -/
structure FS where
  files : RPath → Option Bytes
  dirs : List String → Bool

/-- Create or overwrite the file at p with contents c. -/
def FS.setFile (fs : FS) (p : RPath) (c : Bytes) : FS :=
  ⟨fun q => if q = p then some c else fs.files q, fs.dirs⟩

/-- Remove the file at p. -/
def FS.removeFile (fs : FS) (p : RPath) : FS :=
  ⟨fun q => if q = p then none else fs.files q, fs.dirs⟩

/-- fs.create_dir_all: create the directory and every missing ancestor
segment; directories already present are untouched. -/
def FS.createDirAll (fs : FS) (d : List String) : FS :=
  ⟨fs.files, fun x => if x ∈ d.inits then true else fs.dirs x⟩

/-- POSIX rename: in one indivisible step the destination entry comes to
hold the source contents and the source entry is gone; renaming a path
onto itself is a no-op. -/
def FS.renameFile (fs : FS) (src dst : RPath) : FS :=
  ⟨fun q => if q = dst then fs.files src else if q = src then none else fs.files q, fs.dirs⟩

/-- The primitive filesystem operations performed by safe_write, in the
order the protocol attempts them. -/
inductive Step where
  | mkdir
  | removeTmp
  | createNew
  | writeAll
  | flush
  | syncAll
  | drop
  | removeTarget
  | rename
deriving DecidableEq, Repr, Fintype

/-- Outcome of a call: success, or the io::Error of the first failing
step, returned verbatim. -/
inductive Res where
  | ok : Res
  | fail : Step → Res
deriving DecidableEq, Repr

/-- A recorded execution: the list of attempted primitive steps with the
filesystem state after each attempt, the outcome, and the final state. -/
structure Run where
  trace : List (Step × FS)
  result : Res
  final : FS

/-- The sequence of attempted primitive steps of a run. -/
def Run.ops (r : Run) : List Step :=
  r.trace.map Prod.fst

/-- Sequencing: a later phase runs only when the earlier phase succeeded;
a failure is returned immediately with no further step attempted. -/
def Run.andThen (r : Run) (k : FS → Run) : Run :=
  match r.result with
  | .fail _ => r
  | .ok =>
    ⟨r.trace ++ (k r.final).trace, (k r.final).result, (k r.final).final⟩

/-- The failure oracle: whether each fallible primitive succeeds when
attempted, plus how many bytes a failing write_all manages to write. -/
structure Oracle where
  mkdirOk : Bool
  removeTmpOk : Bool
  createOk : Bool
  writeOk : Bool
  flushOk : Bool
  syncOk : Bool
  removeTargetOk : Bool
  renameOk : Bool
  shortLen : Nat

/-- fs::create_dir_all(parent): idempotent creation of the parent chain. -/
def stepMkdir (o : Oracle) (fs : FS) (p : RPath) : Run :=
  if o.mkdirOk then
    ⟨[(.mkdir, fs.createDirAll (parentOf p))], .ok, fs.createDirAll (parentOf p)⟩
  else ⟨[(.mkdir, fs)], .fail .mkdir, fs⟩

/-- if temp_path.exists() then fs::remove_file(&temp_path): stale-temp
cleanup, attempted only when a file occupies the temporary name. -/
def stepRemoveStale (o : Oracle) (fs : FS) (temp : RPath) : Run :=
  if (fs.files temp).isSome then
    if o.removeTmpOk then
      ⟨[(.removeTmp, fs.removeFile temp)], .ok, fs.removeFile temp⟩
    else ⟨[(.removeTmp, fs)], .fail .removeTmp, fs⟩
  else ⟨[], .ok, fs⟩

/-- OpenOptions create_new(true): exclusive creation of the empty
temporary file; errors if a file exists at that name at this moment. -/
def stepCreateNew (o : Oracle) (fs : FS) (temp : RPath) : Run :=
  if (fs.files temp).isSome then ⟨[(.createNew, fs)], .fail .createNew, fs⟩
  else if o.createOk then
    ⟨[(.createNew, fs.setFile temp [])], .ok, fs.setFile temp []⟩
  else ⟨[(.createNew, fs)], .fail .createNew, fs⟩

/-- temp_file.write_all(content): on failure only a prefix of the payload
reaches the temporary file. -/
def stepWriteAll (o : Oracle) (fs : FS) (temp : RPath) (content : Bytes) : Run :=
  if o.writeOk then
    ⟨[(.writeAll, fs.setFile temp content)], .ok, fs.setFile temp content⟩
  else
    ⟨[(.writeAll, fs.setFile temp (content.take o.shortLen))], .fail .writeAll,
      fs.setFile temp (content.take o.shortLen)⟩

/-- temp_file.flush(): moves buffered bytes toward the OS, no visible
state change in this model. -/
def stepFlush (o : Oracle) (fs : FS) : Run :=
  if o.flushOk then ⟨[(.flush, fs)], .ok, fs⟩ else ⟨[(.flush, fs)], .fail .flush, fs⟩

/-- temp_file.sync_all(): the durability barrier. -/
def stepSync (o : Oracle) (fs : FS) : Run :=
  if o.syncOk then ⟨[(.syncAll, fs)], .ok, fs⟩ else ⟨[(.syncAll, fs)], .fail .syncAll, fs⟩

/-- drop(temp_file): releasing the handle cannot fail. -/
def stepDrop (fs : FS) : Run :=
  ⟨[(.drop, fs)], .ok, fs⟩

/-- fs::rename(&temp_path, path): fails if the source is gone or the
oracle injects an error; otherwise one indivisible replacement. -/
def stepRename (o : Oracle) (fs : FS) (temp p : RPath) : Run :=
  if (fs.files temp).isSome && o.renameOk then
    ⟨[(.rename, fs.renameFile temp p)], .ok, fs.renameFile temp p⟩
  else ⟨[(.rename, fs)], .fail .rename, fs⟩

/-- The commit phase: on the windows branch an existing target is first
removed (cfg(windows) block), then the rename; on the POSIX branch the
rename alone. -/
def commitStep (w : Bool) (o : Oracle) (fs : FS) (temp p : RPath) : Run :=
  if w then
    if (fs.files p).isSome then
      if o.removeTargetOk then
        (⟨[(.removeTarget, fs.removeFile p)], .ok, fs.removeFile p⟩ : Run).andThen
          fun fs1 => stepRename o fs1 temp p
      else ⟨[(.removeTarget, fs)], .fail .removeTarget, fs⟩
    else stepRename o fs temp p
  else stepRename o fs temp p

/-- Steps 1 through 8 of safe_write: parent derivation and creation,
temporary-name derivation, stale-temp cleanup, exclusive creation,
payload write, flush, durability barrier, handle release. -/
def prepare (o : Oracle) (fs0 : FS) (p : RPath) (content : Bytes) : Run :=
  (stepMkdir o fs0 p).andThen fun fs1 =>
  (stepRemoveStale o fs1 (tempPathOf p)).andThen fun fs2 =>
  (stepCreateNew o fs2 (tempPathOf p)).andThen fun fs3 =>
  (stepWriteAll o fs3 (tempPathOf p) content).andThen fun fs4 =>
  (stepFlush o fs4).andThen fun fs5 =>
  (stepSync o fs5).andThen fun fs6 =>
  stepDrop fs6

/-- The whole of safe_write: the preparation steps followed by the
platform-dependent commit. -/
def safe_write (w : Bool) (o : Oracle) (fs0 : FS) (p : RPath) (content : Bytes) : Run :=
  (prepare o fs0 p content).andThen fun fs =>
  commitStep w o fs (tempPathOf p) p

/-- The oracle under which no environmental failure is injected. -/
def okOracle : Oracle :=
  ⟨true, true, true, true, true, true, true, true, 0⟩

/-- An oracle whose write_all fails after writing nothing. -/
def writeFailOracle : Oracle :=
  ⟨true, true, true, false, true, true, true, true, 0⟩

/-- An oracle whose flush fails. -/
def flushFailOracle : Oracle :=
  ⟨true, true, true, true, false, true, true, true, 0⟩

/-- All oracle components report success. -/
def Oracle.allOk (o : Oracle) : Prop :=
  o.mkdirOk = true ∧ o.removeTmpOk = true ∧ o.createOk = true ∧ o.writeOk = true ∧
    o.flushOk = true ∧ o.syncOk = true ∧ o.removeTargetOk = true ∧ o.renameOk = true

/-- The empty filesystem. -/
def emptyFS : FS :=
  ⟨fun _ => none, fun _ => false⟩

/-- A filesystem holding exactly one file. -/
def oneFileFS (p : RPath) (c : Bytes) : FS :=
  ⟨fun q => if q = p then some c else none, fun _ => false⟩

/-- The path foo.tmp in the current directory: its derived temporary name
is itself. -/
def fooTmp : RPath :=
  ⟨[], "foo.tmp".toList⟩

/-- The path foo.txt in the current directory. -/
def fooTxt : RPath :=
  ⟨[], "foo.txt".toList⟩

/-- a occurs strictly before b in l (first occurrences). -/
abbrev Before (a b : Step) (l : List Step) : Prop :=
  a ∈ l ∧ b ∈ l ∧ l.indexOf a < l.indexOf b

/-- Expected step sequence of the preparation phase, as a function of the
oracle outcomes and of whether a stale temporary file was present. -/
def opsAfterB (c w f s : Bool) : List Step :=
  if c = false then [.createNew]
  else if w = false then [.createNew, .writeAll]
  else if f = false then [.createNew, .writeAll, .flush]
  else if s = false then [.createNew, .writeAll, .flush, .syncAll]
  else [.createNew, .writeAll, .flush, .syncAll, .drop]

/-- Expected outcome of the preparation phase after the stale-temp step. -/
def resAfterB (c w f s : Bool) : Res :=
  if c = false then .fail .createNew
  else if w = false then .fail .writeAll
  else if f = false then .fail .flush
  else if s = false then .fail .syncAll
  else .ok

/-- Expected step sequence of the whole preparation phase. -/
def opsPrepB (m rt c w f s stale : Bool) : List Step :=
  if m = false then [.mkdir]
  else if stale then
    (if rt = false then [.mkdir, .removeTmp]
     else [Step.mkdir, Step.removeTmp] ++ opsAfterB c w f s)
  else [Step.mkdir] ++ opsAfterB c w f s

/-- Expected outcome of the whole preparation phase. -/
def resPrepB (m rt c w f s stale : Bool) : Res :=
  if m = false then .fail .mkdir
  else if stale then (if rt = false then .fail .removeTmp else resAfterB c w f s)
  else resAfterB c w f s

/-! Basic simp lemmas about the filesystem operations. -/

@[simp] theorem createDirAll_files (fs : FS) (d : List String) :
    (fs.createDirAll d).files = fs.files := rfl

@[simp] theorem setFile_dirs (fs : FS) (p : RPath) (c : Bytes) :
    (fs.setFile p c).dirs = fs.dirs := rfl

@[simp] theorem removeFile_dirs (fs : FS) (p : RPath) :
    (fs.removeFile p).dirs = fs.dirs := rfl

@[simp] theorem renameFile_dirs (fs : FS) (src dst : RPath) :
    (fs.renameFile src dst).dirs = fs.dirs := rfl

@[simp] theorem setFile_files_self (fs : FS) (p : RPath) (c : Bytes) :
    (fs.setFile p c).files p = some c := by
  simp [FS.setFile]

theorem setFile_files_ne {q p : RPath} (fs : FS) (c : Bytes) (h : q ≠ p) :
    (fs.setFile p c).files q = fs.files q := by
  simp [FS.setFile, h]

@[simp] theorem removeFile_files_self (fs : FS) (p : RPath) :
    (fs.removeFile p).files p = none := by
  simp [FS.removeFile]

theorem removeFile_files_ne {q p : RPath} (fs : FS) (h : q ≠ p) :
    (fs.removeFile p).files q = fs.files q := by
  simp [FS.removeFile, h]

@[simp] theorem renameFile_files_dst (fs : FS) (src dst : RPath) :
    (fs.renameFile src dst).files dst = fs.files src := by
  simp [FS.renameFile]

theorem renameFile_files_src {src dst : RPath} (fs : FS) (h : src ≠ dst) :
    (fs.renameFile src dst).files src = none := by
  simp [FS.renameFile, h]

theorem renameFile_files_ne {q src dst : RPath} (fs : FS) (h1 : q ≠ dst) (h2 : q ≠ src) :
    (fs.renameFile src dst).files q = fs.files q := by
  simp [FS.renameFile, h1, h2]

theorem createDirAll_dirs_mem {d : List String} {d1 : List String} (fs : FS)
    (h : d ∈ d1.inits) : (fs.createDirAll d1).dirs d = true := by
  simp [FS.createDirAll, (List.mem_inits d d1).mp h]

theorem createDirAll_dirs_mono {d : List String} (fs : FS) (d1 : List String)
    (h : fs.dirs d = true) : (fs.createDirAll d1).dirs d = true := by
  simp only [FS.createDirAll]
  split <;> simp [h]

@[simp] theorem ite_same_cond {α : Type} (c : Prop) [Decidable c] (a b d : α) :
    (if c then a else if c then b else d) = if c then a else d := by
  by_cases h : c <;> simp [h]

@[simp] theorem ops_mk (t : List (Step × FS)) (res : Res) (f : FS) :
    Run.ops ⟨t, res, f⟩ = t.map Prod.fst := rfl

@[simp] theorem andThen_mk_ok (t : List (Step × FS)) (f : FS) (k : FS → Run) :
    Run.andThen ⟨t, .ok, f⟩ k = ⟨t ++ (k f).trace, (k f).result, (k f).final⟩ := rfl

@[simp] theorem andThen_mk_fail (t : List (Step × FS)) (e : Step) (f : FS) (k : FS → Run) :
    Run.andThen ⟨t, .fail e, f⟩ k = ⟨t, .fail e, f⟩ := rfl

/-! Characterization of the preparation phase. -/

theorem prepare_state (o : Oracle) (fs0 : FS) (p : RPath) (content : Bytes) :
    (prepare o fs0 p content).result = .ok →
      (∀ q, (prepare o fs0 p content).final.files q =
        if q = tempPathOf p then some content else fs0.files q) ∧
      (Step.syncAll, (prepare o fs0 p content).final) ∈ (prepare o fs0 p content).trace ∧
      (Step.drop, (prepare o fs0 p content).final) ∈ (prepare o fs0 p content).trace := by
  by_cases hm : o.mkdirOk = true <;>
  by_cases hst : (fs0.files (tempPathOf p)).isSome = true <;>
  by_cases hrt : o.removeTmpOk = true <;>
  by_cases hc : o.createOk = true <;>
  by_cases hw : o.writeOk = true <;>
  by_cases hf : o.flushOk = true <;>
  by_cases hs : o.syncOk = true <;>
  simp [prepare, stepMkdir, stepRemoveStale, stepCreateNew, stepWriteAll, stepFlush,
    stepSync, stepDrop, hm, hst, hrt, hc, hw, hf, hs, FS.setFile, FS.removeFile]

theorem prepare_ops (o : Oracle) (fs0 : FS) (p : RPath) (content : Bytes) :
    (prepare o fs0 p content).ops =
      opsPrepB o.mkdirOk o.removeTmpOk o.createOk o.writeOk o.flushOk o.syncOk
        ((fs0.files (tempPathOf p)).isSome) ∧
    (prepare o fs0 p content).result =
      resPrepB o.mkdirOk o.removeTmpOk o.createOk o.writeOk o.flushOk o.syncOk
        ((fs0.files (tempPathOf p)).isSome) := by
  by_cases hm : o.mkdirOk = true <;>
  by_cases hst : (fs0.files (tempPathOf p)).isSome = true <;>
  by_cases hrt : o.removeTmpOk = true <;>
  by_cases hc : o.createOk = true <;>
  by_cases hw : o.writeOk = true <;>
  by_cases hf : o.flushOk = true <;>
  by_cases hs : o.syncOk = true <;>
  simp [prepare, stepMkdir, stepRemoveStale, stepCreateNew, stepWriteAll, stepFlush,
    stepSync, stepDrop, hm, hst, hrt, hc, hw, hf, hs,
    opsPrepB, opsAfterB, resPrepB, resAfterB]

theorem opsPrepB_nodup : ∀ m rt c w f s stale : Bool,
    (opsPrepB m rt c w f s stale).Nodup := by decide

theorem opsPrepB_no_commit : ∀ m rt c w f s stale : Bool,
    Step.rename ∉ opsPrepB m rt c w f s stale ∧
    Step.removeTarget ∉ opsPrepB m rt c w f s stale := by decide

theorem resPrepB_fail_facts : ∀ (m rt c w f s stale : Bool) (e : Step),
    resPrepB m rt c w f s stale = .fail e →
      (opsPrepB m rt c w f s stale).getLast? = some e ∧
      e ≠ .removeTarget ∧ e ≠ .rename := by decide

theorem resPrepB_ok_facts : ∀ m rt c w f s stale : Bool,
    resPrepB m rt c w f s stale = .ok →
      Step.syncAll ∈ opsPrepB m rt c w f s stale ∧
      Step.drop ∈ opsPrepB m rt c w f s stale := by decide

theorem resPrepB_mkdir : ∀ rt c w f s stale : Bool,
    resPrepB true rt c w f s stale ≠ .fail .mkdir := by decide

theorem opsPrepB_stale_ok : ∀ m rt c w f s : Bool,
    resPrepB m rt c w f s true = .ok →
      Before .removeTmp .createNew (opsPrepB m rt c w f s true) ∧
      Step.removeTmp ∈ opsPrepB m rt c w f s true := by decide

/-! Invariant preservation through the preparation phase. -/

theorem andThen_pred (P : FS → Prop) (r : Run) (k : FS → Run)
    (hr : ∀ e ∈ r.trace, P e.2) (hrf : P r.final)
    (hk : ∀ fs, P fs → (∀ e ∈ (k fs).trace, P e.2) ∧ P (k fs).final) :
    (∀ e ∈ (r.andThen k).trace, P e.2) ∧ P (r.andThen k).final := by
  rcases r with ⟨t, res, f⟩
  cases res with
  | fail e => exact ⟨hr, hrf⟩
  | ok =>
    rcases hk f hrf with ⟨h1, h2⟩
    refine ⟨?_, h2⟩
    intro e he
    rcases List.mem_append.1 he with h | h
    · exact hr e h
    · exact h1 e h

theorem stepMkdir_pred (P : FS → Prop) (o : Oracle) (fs : FS) (p : RPath)
    (h0 : P fs) (h1 : P (fs.createDirAll (parentOf p))) :
    (∀ e ∈ (stepMkdir o fs p).trace, P e.2) ∧ P (stepMkdir o fs p).final := by
  by_cases hm : o.mkdirOk = true <;> simp [stepMkdir, hm, h0, h1]

theorem stepRemoveStale_pred (P : FS → Prop) (o : Oracle) (fs : FS) (temp : RPath)
    (h0 : P fs) (h1 : P (fs.removeFile temp)) :
    (∀ e ∈ (stepRemoveStale o fs temp).trace, P e.2) ∧ P (stepRemoveStale o fs temp).final := by
  by_cases hex : (fs.files temp).isSome = true <;>
  by_cases hrt : o.removeTmpOk = true <;>
  simp [stepRemoveStale, hex, hrt, h0, h1]

theorem stepCreateNew_pred (P : FS → Prop) (o : Oracle) (fs : FS) (temp : RPath)
    (h0 : P fs) (h1 : P (fs.setFile temp [])) :
    (∀ e ∈ (stepCreateNew o fs temp).trace, P e.2) ∧ P (stepCreateNew o fs temp).final := by
  by_cases hex : (fs.files temp).isSome = true <;>
  by_cases hc : o.createOk = true <;>
  simp [stepCreateNew, hex, hc, h0, h1]

theorem stepWriteAll_pred (P : FS → Prop) (o : Oracle) (fs : FS) (temp : RPath)
    (content : Bytes) (h1 : ∀ c, P (fs.setFile temp c)) :
    (∀ e ∈ (stepWriteAll o fs temp content).trace, P e.2) ∧
      P (stepWriteAll o fs temp content).final := by
  by_cases hw : o.writeOk = true <;> simp [stepWriteAll, hw, h1]

theorem stepFlush_pred (P : FS → Prop) (o : Oracle) (fs : FS) (h0 : P fs) :
    (∀ e ∈ (stepFlush o fs).trace, P e.2) ∧ P (stepFlush o fs).final := by
  by_cases hf : o.flushOk = true <;> simp [stepFlush, hf, h0]

theorem stepSync_pred (P : FS → Prop) (o : Oracle) (fs : FS) (h0 : P fs) :
    (∀ e ∈ (stepSync o fs).trace, P e.2) ∧ P (stepSync o fs).final := by
  by_cases hs : o.syncOk = true <;> simp [stepSync, hs, h0]

theorem stepDrop_pred (P : FS → Prop) (fs : FS) (h0 : P fs) :
    (∀ e ∈ (stepDrop fs).trace, P e.2) ∧ P (stepDrop fs).final := by
  simp [stepDrop, h0]

theorem prepare_pred (P : FS → Prop) (o : Oracle) (fs0 : FS) (p : RPath) (content : Bytes)
    (h0 : P fs0)
    (hmk : ∀ fs, P fs → P (fs.createDirAll (parentOf p)))
    (hrm : ∀ fs, P fs → P (fs.removeFile (tempPathOf p)))
    (hset : ∀ fs c, P fs → P (fs.setFile (tempPathOf p) c)) :
    (∀ e ∈ (prepare o fs0 p content).trace, P e.2) ∧ P (prepare o fs0 p content).final := by
  unfold prepare
  have s1 := stepMkdir_pred P o fs0 p h0 (hmk _ h0)
  refine andThen_pred P _ _ s1.1 s1.2 ?_
  intro fs1 h1
  have s2 := stepRemoveStale_pred P o fs1 (tempPathOf p) h1 (hrm _ h1)
  refine andThen_pred P _ _ s2.1 s2.2 ?_
  intro fs2 h2
  have s3 := stepCreateNew_pred P o fs2 (tempPathOf p) h2 (hset _ _ h2)
  refine andThen_pred P _ _ s3.1 s3.2 ?_
  intro fs3 h3
  have s4 := stepWriteAll_pred P o fs3 (tempPathOf p) content (fun c => hset _ _ h3)
  refine andThen_pred P _ _ s4.1 s4.2 ?_
  intro fs4 h4
  have s5 := stepFlush_pred P o fs4 h4
  refine andThen_pred P _ _ s5.1 s5.2 ?_
  intro fs5 h5
  have s6 := stepSync_pred P o fs5 h5
  refine andThen_pred P _ _ s6.1 s6.2 ?_
  intro fs6 h6
  exact stepDrop_pred P fs6 h6

/-! Characterization of the commit phase. -/

theorem commit_posix (o : Oracle) (fs : FS) (temp p : RPath) :
    commitStep false o fs temp p = stepRename o fs temp p := rfl

theorem stepRename_ops (o : Oracle) (fs : FS) (temp p : RPath) :
    (stepRename o fs temp p).ops = [Step.rename] := by
  by_cases h : ((fs.files temp).isSome = true ∧ o.renameOk = true) <;>
  simp [stepRename, h]

theorem commit_ops (w : Bool) (o : Oracle) (fs : FS) (temp p : RPath) :
    (commitStep w o fs temp p).ops = [Step.rename] ∨
    (commitStep w o fs temp p).ops = [Step.removeTarget] ∨
    (commitStep w o fs temp p).ops = [Step.removeTarget, Step.rename] := by
  cases w with
  | false => exact Or.inl (stepRename_ops o fs temp p)
  | true =>
    by_cases ht : (fs.files p).isSome = true
    · by_cases hrm : o.removeTargetOk = true
      · right; right
        by_cases hr : (((fs.removeFile p).files temp).isSome = true ∧ o.renameOk = true) <;>
        simp [commitStep, ht, hrm, stepRename, hr, Run.andThen]
      · right; left
        simp [commitStep, ht, hrm]
    · exact Or.inl (by simpa [commitStep, ht] using stepRename_ops o fs temp p)

theorem commit_ne_empty (w : Bool) (o : Oracle) (fs : FS) (temp p : RPath) :
    (commitStep w o fs temp p).ops ≠ [] := by
  rcases commit_ops w o fs temp p with h | h | h <;> simp [h]

theorem commit_windows_remove (o : Oracle) (fs : FS) (temp p : RPath)
    (ht : (fs.files p).isSome = true) (hrm : o.removeTargetOk = true) :
    commitStep true o fs temp p =
      ⟨(Step.removeTarget, fs.removeFile p) :: (stepRename o (fs.removeFile p) temp p).trace,
        (stepRename o (fs.removeFile p) temp p).result,
        (stepRename o (fs.removeFile p) temp p).final⟩ := by
  simp [commitStep, ht, hrm, Run.andThen]

theorem commit_windows_fresh (o : Oracle) (fs : FS) (temp p : RPath)
    (ht : (fs.files p).isSome = false) :
    commitStep true o fs temp p = stepRename o fs temp p := by
  simp [commitStep, ht]

theorem commit_fail (w : Bool) (o : Oracle) (fs : FS) (temp p : RPath) (e : Step)
    (h : (commitStep w o fs temp p).result = .fail e) :
    (e = .removeTarget ∨ e = .rename) ∧
    (commitStep w o fs temp p).ops.getLast? = some e := by
  cases w with
  | false =>
    rw [commit_posix] at h ⊢
    by_cases hr : ((fs.files temp).isSome = true ∧ o.renameOk = true)
    · simp [stepRename, hr] at h
    · simp only [stepRename, Bool.and_eq_true, if_neg hr] at h ⊢
      cases h
      exact ⟨Or.inr rfl, by simp⟩
  | true =>
    by_cases ht : (fs.files p).isSome = true
    · by_cases hrm : o.removeTargetOk = true
      · rw [commit_windows_remove o fs temp p ht hrm] at h ⊢
        by_cases hr : (((fs.removeFile p).files temp).isSome = true ∧ o.renameOk = true)
        · simp [stepRename, hr] at h
        · simp only [stepRename, Bool.and_eq_true, if_neg hr] at h ⊢
          cases h
          exact ⟨Or.inr rfl, by simp⟩
      · simp only [commitStep, ht, if_true, hrm, Bool.false_eq_true, if_false] at h ⊢
        cases h
        exact ⟨Or.inl rfl, by simp⟩
    · rw [commit_windows_fresh o fs temp p (by simpa using ht)] at h ⊢
      by_cases hr : ((fs.files temp).isSome = true ∧ o.renameOk = true)
      · simp [stepRename, hr] at h
      · simp only [stepRename, Bool.and_eq_true, if_neg hr] at h ⊢
        cases h
        exact ⟨Or.inr rfl, by simp⟩

theorem commit_ok (w : Bool) (o : Oracle) (fs : FS) (temp p : RPath)
    (h : (commitStep w o fs temp p).result = .ok) :
    (commitStep w o fs temp p).final.files p = fs.files temp ∧
    (temp ≠ p → (commitStep w o fs temp p).final.files temp = none) ∧
    (∀ q, q ≠ p → q ≠ temp → (commitStep w o fs temp p).final.files q = fs.files q) ∧
    (commitStep w o fs temp p).final.dirs = fs.dirs := by
  cases w with
  | false =>
    rw [commit_posix] at h ⊢
    by_cases hr : ((fs.files temp).isSome = true ∧ o.renameOk = true)
    · refine ⟨by simp [stepRename, hr], ?_, ?_, by simp [stepRename, hr]⟩
      · intro hne
        simp [stepRename, hr, renameFile_files_src fs hne]
      · intro q h1 h2
        simp [stepRename, hr, renameFile_files_ne fs h1 h2]
    · simp [stepRename, hr] at h
  | true =>
    by_cases ht : (fs.files p).isSome = true
    · by_cases hrm : o.removeTargetOk = true
      · rw [commit_windows_remove o fs temp p ht hrm] at h ⊢
        by_cases hr : (((fs.removeFile p).files temp).isSome = true ∧ o.renameOk = true)
        · have htp : temp ≠ p := by
            intro hx
            rw [hx] at hr
            simp at hr
          have hr2 : (fs.files temp).isSome = true ∧ o.renameOk = true := by
            rcases hr with ⟨hr1, hrr⟩
            rw [removeFile_files_ne fs htp] at hr1
            exact ⟨hr1, hrr⟩
          refine ⟨?_, ?_, ?_, by simp [stepRename, hr, hr2]⟩
          · simp [stepRename, hr, hr2, removeFile_files_ne fs htp]
          · intro hne
            simp [stepRename, hr, hr2, renameFile_files_src (fs.removeFile p) hne]
          · intro q h1 h2
            simp [stepRename, hr, hr2, renameFile_files_ne (fs.removeFile p) h1 h2,
              removeFile_files_ne fs h1]
        · simp [stepRename, hr] at h
      · simp [commitStep, ht, hrm] at h
    · rw [commit_windows_fresh o fs temp p (by simpa using ht)] at h ⊢
      by_cases hr : ((fs.files temp).isSome = true ∧ o.renameOk = true)
      · refine ⟨by simp [stepRename, hr], ?_, ?_, by simp [stepRename, hr]⟩
        · intro hne
          simp [stepRename, hr, renameFile_files_src fs hne]
        · intro q h1 h2
          simp [stepRename, hr, renameFile_files_ne fs h1 h2]
      · simp [stepRename, hr] at h

theorem commit_dirs (w : Bool) (o : Oracle) (fs : FS) (temp p : RPath) :
    (∀ e ∈ (commitStep w o fs temp p).trace, e.2.dirs = fs.dirs) ∧
    (commitStep w o fs temp p).final.dirs = fs.dirs := by
  cases w with
  | false =>
    rw [commit_posix]
    by_cases hr : ((fs.files temp).isSome = true ∧ o.renameOk = true) <;>
    simp [stepRename, hr]
  | true =>
    by_cases ht : (fs.files p).isSome = true
    · by_cases hrm : o.removeTargetOk = true
      · by_cases hr : (((fs.removeFile p).files temp).isSome = true ∧ o.renameOk = true) <;>
        simp [commitStep, ht, hrm, stepRename, hr, Run.andThen]
      · simp [commitStep, ht, hrm]
    · rw [commit_windows_fresh o fs temp p (by simpa using ht)]
      by_cases hr : ((fs.files temp).isSome = true ∧ o.renameOk = true) <;>
      simp [stepRename, hr]

theorem commit_posix_trace (o : Oracle) (fs : FS) (temp p : RPath) :
    ∀ e ∈ (commitStep false o fs temp p).trace,
      e.2.files p = fs.files temp ∨ e.2.files p = fs.files p := by
  rw [commit_posix]
  by_cases hr : ((fs.files temp).isSome = true ∧ o.renameOk = true) <;>
  simp [stepRename, hr]

/-! Facts about the temporary-name derivation. -/

theorem lastDotIdx_no_dot {ts : List Char} (h : ('.' : Char) ∉ ts) :
    lastDotIdx ts = none := by
  induction ts with
  | nil => rfl
  | cons c cs ih =>
    have hc : c ≠ '.' := fun hx => h (hx ▸ List.mem_cons_self c cs)
    have hcs : ('.' : Char) ∉ cs := fun hx => h (List.mem_cons_of_mem c hx)
    simp [lastDotIdx, ih hcs, hc]

theorem lastDotIdx_append_dot (xs ts : List Char) (h : ('.' : Char) ∉ ts) :
    lastDotIdx (xs ++ '.' :: ts) = some xs.length := by
  induction xs with
  | nil => simp [lastDotIdx, lastDotIdx_no_dot h]
  | cons c cs ih => simp [lastDotIdx, ih]

theorem lastDotIdx_get {cs : List Char} {i : Nat} (h : lastDotIdx cs = some i) :
    cs.get? i = some '.' := by
  induction cs generalizing i with
  | nil => simp [lastDotIdx] at h
  | cons c cs ih =>
    rw [lastDotIdx] at h
    cases hlt : lastDotIdx cs with
    | some j =>
      rw [hlt] at h
      cases h
      simpa using ih hlt
    | none =>
      rw [hlt] at h
      by_cases hc : c = '.'
      · rw [if_pos hc] at h
        cases h
        simp [hc]
      · rw [if_neg hc] at h
        cases h

theorem drop_cons_of_get {cs : List Char} {i : Nat} {a : Char}
    (h : cs.get? i = some a) : cs.drop i = a :: cs.drop (i + 1) := by
  induction cs generalizing i with
  | nil => simp at h
  | cons c cs ih =>
    cases i with
    | zero =>
      simp only [List.get?_cons_zero, Option.some.injEq] at h
      simp [h]
    | succ n =>
      simp only [List.get?_cons_succ] at h
      simpa using ih h

theorem rustFileStem_ne_nil {cs : List Char} (h : cs ≠ []) : rustFileStem cs ≠ [] := by
  unfold rustFileStem
  cases hld : lastDotIdx cs with
  | none => exact h
  | some i =>
    cases i with
    | zero => exact h
    | succ n =>
      intro hx
      rcases (List.take_eq_nil_iff).1 hx with h1 | h1
      · exact Nat.succ_ne_zero n h1
      · exact h h1

theorem stem_of_append (xs ts : List Char) (hts : ('.' : Char) ∉ ts) (hx : xs ≠ []) :
    rustFileStem (xs ++ '.' :: ts) = xs ∧ rustExtension (xs ++ '.' :: ts) = some ts := by
  obtain ⟨k, hk⟩ : ∃ k, xs.length = k + 1 := by
    have := List.length_pos.mpr hx
    exact ⟨xs.length - 1, by omega⟩
  have hld := lastDotIdx_append_dot xs ts hts
  rw [hk] at hld
  constructor
  · unfold rustFileStem
    rw [hld]
    show (xs ++ '.' :: ts).take (k + 1) = xs
    rw [← hk]
    exact List.take_left xs ('.' :: ts)
  · unfold rustExtension
    rw [hld]
    show some ((xs ++ '.' :: ts).drop (k + 1 + 1)) = some ts
    congr 1
    have hsp : xs ++ '.' :: ts = (xs ++ ['.']) ++ ts := by simp
    have hlen : (xs ++ ['.']).length = k + 1 + 1 := by simp [hk]
    rw [hsp, ← hlen]
    exact List.drop_left _ _

theorem withTmpExt_no_ext {cs : List Char} (h : rustExtension cs = none) :
    withTmpExt cs = cs ++ ('.' :: "tmp".toList) := by
  unfold withTmpExt rustFileStem
  unfold rustExtension at h
  cases hld : lastDotIdx cs with
  | none => rfl
  | some i =>
    cases i with
    | zero => rfl
    | succ n =>
      rw [hld] at h
      exact Option.noConfusion h

theorem withTmpExt_of_tmp_ext {cs : List Char}
    (h : rustExtension cs = some ("tmp".toList)) : withTmpExt cs = cs := by
  unfold rustExtension at h
  cases hld : lastDotIdx cs with
  | none =>
    rw [hld] at h
    cases h
  | some i =>
    rw [hld] at h
    cases i with
    | zero => cases h
    | succ n =>
      have hdrop : cs.drop (n + 1 + 1) = "tmp".toList := by simpa using h
      have hdot : cs.get? (n + 1) = some '.' := lastDotIdx_get hld
      have hsplit := drop_cons_of_get hdot
      unfold withTmpExt rustFileStem
      rw [hld]
      show cs.take (n + 1) ++ '.' :: "tmp".toList = cs
      rw [← hdrop, ← hsplit]
      exact List.take_append_drop _ _

/-! Decomposition of safe_write into preparation and commit. -/

theorem sw_of_prepare_fail {o : Oracle} {fs0 : FS} {p : RPath} {content : Bytes} {e : Step}
    (w : Bool) (h : (prepare o fs0 p content).result = .fail e) :
    safe_write w o fs0 p content = prepare o fs0 p content := by
  unfold safe_write Run.andThen
  rw [h]

theorem sw_of_prepare_ok {o : Oracle} {fs0 : FS} {p : RPath} {content : Bytes}
    (w : Bool) (h : (prepare o fs0 p content).result = .ok) :
    safe_write w o fs0 p content =
      ⟨(prepare o fs0 p content).trace ++
         (commitStep w o (prepare o fs0 p content).final (tempPathOf p) p).trace,
       (commitStep w o (prepare o fs0 p content).final (tempPathOf p) p).result,
       (commitStep w o (prepare o fs0 p content).final (tempPathOf p) p).final⟩ := by
  unfold safe_write Run.andThen
  rw [h]

theorem sw_ops_of_prepare_ok {o : Oracle} {fs0 : FS} {p : RPath} {content : Bytes}
    (w : Bool) (h : (prepare o fs0 p content).result = .ok) :
    (safe_write w o fs0 p content).ops =
      (prepare o fs0 p content).ops ++
        (commitStep w o (prepare o fs0 p content).final (tempPathOf p) p).ops := by
  rw [sw_of_prepare_ok w h]
  simp [Run.ops]

/-! Ordering helpers. -/

theorem before_append {a b : Step} {l1 l2 : List Step}
    (ha : a ∈ l1) (hb1 : b ∉ l1) (hb2 : b ∈ l2) : Before a b (l1 ++ l2) := by
  refine ⟨List.mem_append_left _ ha, List.mem_append_right _ hb2, ?_⟩
  rw [List.indexOf_append_of_mem ha, List.indexOf_append_of_not_mem hb1]
  have h1 : l1.indexOf a < l1.length := List.indexOf_lt_length.mpr ha
  omega

theorem before_append_left {a b : Step} {l1 : List Step}
    (h : Before a b l1) (l2 : List Step) : Before a b (l1 ++ l2) := by
  rcases h with ⟨ha, hb, hlt⟩
  refine ⟨List.mem_append_left _ ha, List.mem_append_left _ hb, ?_⟩
  rw [List.indexOf_append_of_mem ha, List.indexOf_append_of_mem hb]
  exact hlt

/-! Further helpers about the commit phase. -/

theorem commit_posix_trace_fst (o : Oracle) (fs : FS) (temp p : RPath) :
    ∀ en ∈ (commitStep false o fs temp p).trace, en.1 = Step.rename := by
  rw [commit_posix]
  by_cases hr : ((fs.files temp).isSome = true ∧ o.renameOk = true) <;>
  simp [stepRename, hr]

theorem commit_result_ok_of (content : Bytes) (w : Bool) (o : Oracle) (fs : FS)
    (temp p : RPath) (hrn : o.renameOk = true) (hrt : o.removeTargetOk = true)
    (htemp : fs.files temp = some content) (hcond : w = false ∨ temp ≠ p) :
    (commitStep w o fs temp p).result = .ok := by
  cases w with
  | false =>
    rw [commit_posix]
    have hc : (fs.files temp).isSome = true ∧ o.renameOk = true :=
      ⟨by rw [htemp]; rfl, hrn⟩
    simp [stepRename, hc]
  | true =>
    have htp : temp ≠ p := by
      rcases hcond with h | h
      · exact Bool.noConfusion h
      · exact h
    by_cases ht : (fs.files p).isSome = true
    · rw [commit_windows_remove o fs temp p ht hrt]
      have hc : ((fs.removeFile p).files temp).isSome = true ∧ o.renameOk = true := by
        rw [removeFile_files_ne fs htp, htemp]
        exact ⟨rfl, hrn⟩
      simp [stepRename, hc]
    · rw [commit_windows_fresh o fs temp p (by simpa using ht)]
      have hc : (fs.files temp).isSome = true ∧ o.renameOk = true :=
        ⟨by rw [htemp]; rfl, hrn⟩
      simp [stepRename, hc]

/-! Directory-creation facts. -/

theorem createDirAll_idem (fs : FS) (d0 : List String) :
    (fs.createDirAll d0).createDirAll d0 = fs.createDirAll d0 := by
  unfold FS.createDirAll
  congr 1
  funext x
  by_cases hx : x ∈ d0.inits <;> simp [hx]

theorem prepare_dirs (o : Oracle) (fs0 : FS) (p : RPath) (content : Bytes)
    (hm : o.mkdirOk = true) {d : List String} (hd : d ∈ (parentOf p).inits) :
    (∀ en ∈ (prepare o fs0 p content).trace, en.2.dirs d = true) ∧
    (prepare o fs0 p content).final.dirs d = true := by
  unfold prepare
  have hP1 : (fs0.createDirAll (parentOf p)).dirs d = true := createDirAll_dirs_mem fs0 hd
  have hhead : (∀ en ∈ (stepMkdir o fs0 p).trace, en.2.dirs d = true) ∧
      (stepMkdir o fs0 p).final.dirs d = true := by
    simp [stepMkdir, hm, hP1]
  refine andThen_pred (fun s => s.dirs d = true) _ _ hhead.1 hhead.2 ?_
  intro fs1 h1
  have s2 := stepRemoveStale_pred (fun s => s.dirs d = true) o fs1 (tempPathOf p) h1
    (by simpa using h1)
  refine andThen_pred (fun s => s.dirs d = true) _ _ s2.1 s2.2 ?_
  intro fs2 h2
  have s3 := stepCreateNew_pred (fun s => s.dirs d = true) o fs2 (tempPathOf p) h2
    (by simpa using h2)
  refine andThen_pred (fun s => s.dirs d = true) _ _ s3.1 s3.2 ?_
  intro fs3 h3
  have s4 := stepWriteAll_pred (fun s => s.dirs d = true) o fs3 (tempPathOf p) content
    (fun c => by simpa using h3)
  refine andThen_pred (fun s => s.dirs d = true) _ _ s4.1 s4.2 ?_
  intro fs4 h4
  have s5 := stepFlush_pred (fun s => s.dirs d = true) o fs4 h4
  refine andThen_pred (fun s => s.dirs d = true) _ _ s5.1 s5.2 ?_
  intro fs5 h5
  have s6 := stepSync_pred (fun s => s.dirs d = true) o fs5 h5
  refine andThen_pred (fun s => s.dirs d = true) _ _ s6.1 s6.2 ?_
  intro fs6 h6
  exact stepDrop_pred (fun s => s.dirs d = true) fs6 h6

theorem prepare_frame (o : Oracle) (fs0 : FS) (p : RPath) (content : Bytes)
    {q : RPath} (hq : q ≠ tempPathOf p) :
    (∀ en ∈ (prepare o fs0 p content).trace, en.2.files q = fs0.files q) ∧
    (prepare o fs0 p content).final.files q = fs0.files q := by
  refine prepare_pred (fun s => s.files q = fs0.files q) o fs0 p content rfl ?_ ?_ ?_
  · intro fs hfs
    simpa using hfs
  · intro fs hfs
    rw [removeFile_files_ne fs hq]
    exact hfs
  · intro fs c hfs
    rw [setFile_files_ne fs c hq]
    exact hfs

/-! The claims. -/

/-- C4: the temporary artifact name is a deterministic function of the
target path alone: it lives in the same parent directory, its stem is the
target's stem and its extension is the constant marker tmp (so the final
extension component is replaced), the marker is appended after a dot when
the target has no extension, and the two distinct targets foo.txt and
foo.dat collide on the same temporary name. -/
theorem c4_temp_naming (d : List String) (cs : List Char) (hcs : cs ≠ []) :
    (tempPathOf ⟨d, cs⟩).dirs = d ∧
    rustFileStem (withTmpExt cs) = rustFileStem cs ∧
    rustExtension (withTmpExt cs) = some ("tmp".toList) ∧
    (rustExtension cs = none → withTmpExt cs = cs ++ ('.' :: "tmp".toList)) ∧
    tempPathOf ⟨d, "foo.txt".toList⟩ = tempPathOf ⟨d, "foo.dat".toList⟩ := by
  have hts : ('.' : Char) ∉ "tmp".toList := by decide
  have hstem := stem_of_append (rustFileStem cs) "tmp".toList hts (rustFileStem_ne_nil hcs)
  refine ⟨rfl, ?_, ?_, withTmpExt_no_ext, ?_⟩
  · show rustFileStem (rustFileStem cs ++ '.' :: "tmp".toList) = rustFileStem cs
    exact hstem.1
  · show rustExtension (rustFileStem cs ++ '.' :: "tmp".toList) = some ("tmp".toList)
    exact hstem.2
  · have hcol : withTmpExt ("foo.txt".toList) = withTmpExt ("foo.dat".toList) := by decide
    show (⟨d, withTmpExt ("foo.txt".toList)⟩ : RPath) = ⟨d, withTmpExt ("foo.dat".toList)⟩
    rw [hcol]

/-- Witness for c4_temp_naming at the concrete file name foo.txt. -/
theorem c4_temp_naming_witness :
    ("foo.txt".toList ≠ ([] : List Char)) ∧
    ((tempPathOf ⟨[], "foo.txt".toList⟩).dirs = [] ∧
     rustFileStem (withTmpExt ("foo.txt".toList)) = rustFileStem ("foo.txt".toList) ∧
     rustExtension (withTmpExt ("foo.txt".toList)) = some ("tmp".toList) ∧
     (rustExtension ("foo.txt".toList) = none →
       withTmpExt ("foo.txt".toList) = "foo.txt".toList ++ ('.' :: "tmp".toList)) ∧
     tempPathOf ⟨[], "foo.txt".toList⟩ = tempPathOf ⟨[], "foo.dat".toList⟩) :=
  ⟨by decide, c4_temp_naming [] "foo.txt".toList (by decide)⟩

/-- C10: for a target whose final extension component is tmp the derived
temporary path is the target itself; on such a pre-existing target the
stale-temp cleanup step removes the pre-existing target before the
payload is durably written (the removal precedes the durability barrier),
and the commit step renames the path onto itself. -/
theorem c10_self_collision :
    (∀ p : RPath, rustExtension p.base = some ("tmp".toList) → tempPathOf p = p) ∧
    ((safe_write false okOracle (oneFileFS fooTmp [9]) fooTmp [1, 2]).result = .ok ∧
     tempPathOf fooTmp = fooTmp ∧
     (∃ en ∈ (safe_write false okOracle (oneFileFS fooTmp [9]) fooTmp [1, 2]).trace,
        en.1 = Step.removeTmp ∧ en.2.files fooTmp = none) ∧
     Before .removeTmp .syncAll (safe_write false okOracle (oneFileFS fooTmp [9]) fooTmp [1, 2]).ops ∧
     (safe_write false okOracle (oneFileFS fooTmp [9]) fooTmp [1, 2]).final.files fooTmp
       = some [1, 2]) := by
  constructor
  · intro p hp
    show (⟨p.dirs, withTmpExt p.base⟩ : RPath) = p
    rw [withTmpExt_of_tmp_ext hp]
  · exact ⟨by decide, by decide, by decide, by decide, by decide⟩

/-- Witness for the universally quantified part of c10_self_collision at
the concrete path foo.tmp. -/
theorem c10_self_collision_witness :
    rustExtension fooTmp.base = some ("tmp".toList) ∧ tempPathOf fooTmp = fooTmp :=
  ⟨by decide, c10_self_collision.1 fooTmp (by decide)⟩

/-- C1 as stated is false: a successful call on the target foo.tmp leaves
a file at the derived temporary path (the derived temporary path being the
target itself). -/
theorem c1_counterexample :
    (safe_write false okOracle emptyFS fooTmp [1]).result = .ok ∧
    (safe_write false okOracle emptyFS fooTmp [1]).final.files (tempPathOf fooTmp)
      = some [1] :=
  ⟨by decide, by decide⟩

/-- C1 (amended): if safe_write returns Ok then the file at the target
holds exactly the content, and whenever the derived temporary path
differs from the target the temporary artifact does not exist; writing
content_A then content_B to the same path is the instance of this at the
second call, leaving exactly content_B. -/
theorem c1_amended (w : Bool) (o : Oracle) (fs0 : FS) (p : RPath) (content : Bytes)
    (h : (safe_write w o fs0 p content).result = .ok) :
    (safe_write w o fs0 p content).final.files p = some content ∧
    (tempPathOf p ≠ p →
      (safe_write w o fs0 p content).final.files (tempPathOf p) = none) := by
  rcases hres : (prepare o fs0 p content).result with _ | e
  case fail =>
    rw [sw_of_prepare_fail w hres, hres] at h
    exact Res.noConfusion h
  case ok =>
    have hfiles := (prepare_state o fs0 p content hres).1
    rw [sw_of_prepare_ok w hres] at h ⊢
    have hc := commit_ok w o (prepare o fs0 p content).final (tempPathOf p) p h
    constructor
    · show (commitStep w o (prepare o fs0 p content).final (tempPathOf p) p).final.files p
        = some content
      rw [hc.1, hfiles (tempPathOf p)]
      simp
    · intro hne
      exact hc.2.1 hne

/-- Witness for c1_amended: a successful concrete call on foo.txt. -/
theorem c1_amended_witness :
    (safe_write false okOracle emptyFS fooTxt [1, 2]).result = .ok ∧
    ((safe_write false okOracle emptyFS fooTxt [1, 2]).final.files fooTxt = some [1, 2] ∧
     (tempPathOf fooTxt ≠ fooTxt →
       (safe_write false okOracle emptyFS fooTxt [1, 2]).final.files (tempPathOf fooTxt)
         = none)) :=
  ⟨by decide, c1_amended false okOracle emptyFS fooTxt [1, 2] (by decide)⟩

/-- C2 as stated is false: on the target foo.tmp (whose derived temporary
path is the target itself) a failure at the payload-write step, well
before the commit step, has already destroyed the pre-call contents of the
target. -/
theorem c2_counterexample :
    (safe_write false writeFailOracle (oneFileFS fooTmp [5]) fooTmp [7]).result
      = .fail .writeAll ∧
    Step.writeAll ≠ Step.removeTarget ∧ Step.writeAll ≠ Step.rename ∧
    (oneFileFS fooTmp [5]).files fooTmp = some [5] ∧
    (safe_write false writeFailOracle (oneFileFS fooTmp [5]) fooTmp [7]).final.files fooTmp
      = some [] :=
  ⟨by decide, by decide, by decide, by decide, by decide⟩

/-- C2 (amended): provided the derived temporary path differs from the
target, a failure at any step before the commit (any error other than the
target-removal and rename errors) leaves the target untouched, and in
fact leaves every path other than the temporary artifact untouched. -/
theorem c2_amended (w : Bool) (o : Oracle) (fs0 : FS) (p : RPath) (content : Bytes)
    (e : Step) (hne : tempPathOf p ≠ p)
    (h : (safe_write w o fs0 p content).result = .fail e)
    (h1 : e ≠ .removeTarget) (h2 : e ≠ .rename) :
    (safe_write w o fs0 p content).final.files p = fs0.files p ∧
    (∀ q, q ≠ tempPathOf p →
      (safe_write w o fs0 p content).final.files q = fs0.files q) := by
  rcases hres : (prepare o fs0 p content).result with _ | e2
  case ok =>
    exfalso
    rw [sw_of_prepare_ok w hres] at h
    rcases (commit_fail w o _ _ p e h).1 with rfl | rfl
    · exact h1 rfl
    · exact h2 rfl
  case fail =>
    rw [sw_of_prepare_fail w hres]
    refine ⟨(prepare_frame o fs0 p content (Ne.symm hne)).2, ?_⟩
    intro q hq
    exact (prepare_frame o fs0 p content hq).2

/-- Witness for c2_amended: a concrete flush failure on foo.txt with an
existing target. -/
theorem c2_amended_witness :
    tempPathOf fooTxt ≠ fooTxt ∧
    (safe_write false flushFailOracle (oneFileFS fooTxt [9]) fooTxt [1]).result
      = .fail .flush ∧
    ((safe_write false flushFailOracle (oneFileFS fooTxt [9]) fooTxt [1]).final.files fooTxt
       = (oneFileFS fooTxt [9]).files fooTxt ∧
     (∀ q, q ≠ tempPathOf fooTxt →
       (safe_write false flushFailOracle (oneFileFS fooTxt [9]) fooTxt [1]).final.files q
         = (oneFileFS fooTxt [9]).files q)) :=
  ⟨by decide, by decide,
    c2_amended false flushFailOracle (oneFileFS fooTxt [9]) fooTxt [1] .flush
      (by decide) (by decide) (by decide) (by decide)⟩

/-- C3 as stated is false: during a successful call on the target foo.tmp
(whose derived temporary path is the target itself) a reader observes an
intermediate state of the target that is neither the pre-call contents
nor the post-call contents. -/
theorem c3_counterexample :
    (safe_write false okOracle (oneFileFS fooTmp [5]) fooTmp [7]).result = .ok ∧
    (∃ en ∈ (safe_write false okOracle (oneFileFS fooTmp [5]) fooTmp [7]).trace,
      en.2.files fooTmp ≠ (oneFileFS fooTmp [5]).files fooTmp ∧
      en.2.files fooTmp ≠ some [7]) :=
  ⟨by decide, by decide⟩

/-- C3 (amended): on the POSIX branch, provided the derived temporary
path differs from the target, no step other than the final rename ever
changes the target, and every intermediate state of the call resolves the
target to its pre-call contents or to the new contents. -/
theorem c3_amended (o : Oracle) (fs0 : FS) (p : RPath) (content : Bytes)
    (hne : tempPathOf p ≠ p) :
    (∀ en ∈ (safe_write false o fs0 p content).trace,
      en.1 ≠ .rename → en.2.files p = fs0.files p) ∧
    (∀ en ∈ (safe_write false o fs0 p content).trace,
      en.2.files p = fs0.files p ∨ en.2.files p = some content) := by
  have hp : p ≠ tempPathOf p := Ne.symm hne
  have frame := prepare_frame o fs0 p content hp
  rcases hres : (prepare o fs0 p content).result with _ | e
  case fail =>
    rw [sw_of_prepare_fail false hres]
    exact ⟨fun en hen _ => frame.1 en hen, fun en hen => Or.inl (frame.1 en hen)⟩
  case ok =>
    have hfiles := (prepare_state o fs0 p content hres).1
    have hptemp : (prepare o fs0 p content).final.files (tempPathOf p) = some content := by
      rw [hfiles]
      simp
    rw [sw_of_prepare_ok false hres]
    constructor
    · intro en hen hren
      rcases List.mem_append.1 hen with hl | hl
      · exact frame.1 en hl
      · exact absurd (commit_posix_trace_fst o _ (tempPathOf p) p en hl) hren
    · intro en hen
      rcases List.mem_append.1 hen with hl | hl
      · exact Or.inl (frame.1 en hl)
      · rcases commit_posix_trace o _ (tempPathOf p) p en hl with hcase | hcase
        · right
          rw [hcase, hptemp]
        · left
          rw [hcase, frame.2]

/-- Witness for c3_amended: a successful concrete call on foo.txt. -/
theorem c3_amended_witness :
    tempPathOf fooTxt ≠ fooTxt ∧
    ((∀ en ∈ (safe_write false okOracle emptyFS fooTxt [3]).trace,
       en.1 ≠ .rename → en.2.files fooTxt = emptyFS.files fooTxt) ∧
     (∀ en ∈ (safe_write false okOracle emptyFS fooTxt [3]).trace,
       en.2.files fooTxt = emptyFS.files fooTxt ∨ en.2.files fooTxt = some [3])) :=
  ⟨by decide, c3_amended okOracle emptyFS fooTxt [3] (by decide)⟩

/-- C5: safe_write derives the parent directory of the target (the empty
component list standing for the current working directory) and ensures
the parent chain exists: when the directory-creation primitive does not
fail environmentally the call never fails at the directory-creation step,
every attempted state from that step on contains every segment of the
parent chain, creation is idempotent and keeps already-present
directories, and the concrete call on a/b/c/file.txt over the empty
filesystem succeeds and creates a, a/b and a/b/c. -/
theorem c5_parent_dirs (w : Bool) (o : Oracle) (fs0 fs : FS) (p : RPath)
    (content : Bytes) (d0 : List String) (hm : o.mkdirOk = true) :
    (safe_write w o fs0 p content).result ≠ .fail .mkdir ∧
    (∀ en ∈ (safe_write w o fs0 p content).trace, ∀ d ∈ (parentOf p).inits,
      en.2.dirs d = true) ∧
    (∀ d ∈ (parentOf p).inits, (safe_write w o fs0 p content).final.dirs d = true) ∧
    (fs.createDirAll d0).createDirAll d0 = fs.createDirAll d0 ∧
    (∀ d1, fs.dirs d0 = true → (fs.createDirAll d1).dirs d0 = true) ∧
    ((safe_write false okOracle emptyFS ⟨["a", "b", "c"], "file.txt".toList⟩ content).result
       = .ok ∧
     ∀ d ∈ (["a", "b", "c"] : List String).inits,
       (safe_write false okOracle emptyFS
         ⟨["a", "b", "c"], "file.txt".toList⟩ content).final.dirs d = true) := by
  refine ⟨?_, ?_, ?_, createDirAll_idem fs d0,
    fun d1 h => createDirAll_dirs_mono fs d1 h, ?_⟩
  · rcases hres : (prepare o fs0 p content).result with _ | e
    · rw [sw_of_prepare_ok w hres]
      intro hx
      rcases (commit_fail w o _ (tempPathOf p) p .mkdir hx).1 with hc | hc <;>
        exact Step.noConfusion hc
    · rw [sw_of_prepare_fail w hres, hres]
      intro hx
      cases hx
      have hres2 := (prepare_ops o fs0 p content).2
      rw [hres, hm] at hres2
      exact resPrepB_mkdir _ _ _ _ _ _ hres2.symm
  · intro en hen d hd
    rcases hres : (prepare o fs0 p content).result with _ | e
    · rw [sw_of_prepare_ok w hres] at hen
      rcases List.mem_append.1 hen with hl | hl
      · exact (prepare_dirs o fs0 p content hm hd).1 en hl
      · rw [(commit_dirs w o _ (tempPathOf p) p).1 en hl]
        exact (prepare_dirs o fs0 p content hm hd).2
    · rw [sw_of_prepare_fail w hres] at hen
      exact (prepare_dirs o fs0 p content hm hd).1 en hen
  · intro d hd
    rcases hres : (prepare o fs0 p content).result with _ | e
    · rw [sw_of_prepare_ok w hres]
      show (commitStep w o _ (tempPathOf p) p).final.dirs d = true
      rw [(commit_dirs w o _ (tempPathOf p) p).2]
      exact (prepare_dirs o fs0 p content hm hd).2
    · rw [sw_of_prepare_fail w hres]
      exact (prepare_dirs o fs0 p content hm hd).2
  · have hpc : (prepare okOracle emptyFS
        ⟨["a", "b", "c"], "file.txt".toList⟩ content).result = .ok := by
      rw [(prepare_ops okOracle emptyFS ⟨["a", "b", "c"], "file.txt".toList⟩ content).2]
      decide
    constructor
    · rw [sw_of_prepare_ok false hpc]
      show (commitStep false okOracle _ _ _).result = .ok
      refine commit_result_ok_of content false okOracle _ _ _ rfl rfl ?_ (Or.inl rfl)
      rw [(prepare_state okOracle emptyFS ⟨["a", "b", "c"], "file.txt".toList⟩ content hpc).1]
      simp
    · intro d hd
      rw [sw_of_prepare_ok false hpc]
      show (commitStep false okOracle _ _ _).final.dirs d = true
      rw [(commit_dirs false okOracle _ _ _).2]
      exact (prepare_dirs okOracle emptyFS
        ⟨["a", "b", "c"], "file.txt".toList⟩ content rfl hd).2

/-- Witness for c5_parent_dirs at a concrete successful call. -/
theorem c5_parent_dirs_witness :
    okOracle.mkdirOk = true ∧
    ((safe_write false okOracle emptyFS fooTxt [1]).result ≠ .fail .mkdir ∧
     (∀ en ∈ (safe_write false okOracle emptyFS fooTxt [1]).trace,
       ∀ d ∈ (parentOf fooTxt).inits, en.2.dirs d = true) ∧
     (∀ d ∈ (parentOf fooTxt).inits,
       (safe_write false okOracle emptyFS fooTxt [1]).final.dirs d = true) ∧
     (emptyFS.createDirAll ["x"]).createDirAll ["x"] = emptyFS.createDirAll ["x"] ∧
     (∀ d1, emptyFS.dirs ["x"] = true → (emptyFS.createDirAll d1).dirs ["x"] = true) ∧
     ((safe_write false okOracle emptyFS
         ⟨["a", "b", "c"], "file.txt".toList⟩ [1]).result = .ok ∧
      ∀ d ∈ (["a", "b", "c"] : List String).inits,
        (safe_write false okOracle emptyFS
          ⟨["a", "b", "c"], "file.txt".toList⟩ [1]).final.dirs d = true)) :=
  ⟨rfl, c5_parent_dirs false okOracle emptyFS emptyFS fooTxt [1] ["x"] rfl⟩

/-- C6 as stated fails on the Windows branch: with a stale file occupying
the derived temporary name of the target foo.tmp (the temporary name
being the target itself), the otherwise failure-free call fails instead
of succeeding. -/
theorem c6_counterexample :
    (oneFileFS fooTmp [9]).files (tempPathOf fooTmp) = some [9] ∧
    (safe_write true okOracle (oneFileFS fooTmp [9]) fooTmp [1]).result = .fail .rename :=
  ⟨by decide, by decide⟩

/-- C6 (amended): when a stale file occupies the derived temporary name
at the start of a call, an otherwise failure-free call removes it before
the exclusive creation and — on the POSIX branch for every path, on the
Windows branch provided the derived temporary path differs from the
target — still succeeds with the target holding exactly the new content;
the creation of the temporary artifact is exclusive: if a file occupies
the temporary name at the moment of creation, that step fails and writes
nothing. -/
theorem c6_amended (w : Bool) (o : Oracle) (fs0 : FS) (p : RPath) (content stale : Bytes)
    (hplat : w = false ∨ tempPathOf p ≠ p)
    (hok : o.allOk)
    (hst : fs0.files (tempPathOf p) = some stale) :
    (safe_write w o fs0 p content).result = .ok ∧
    (safe_write w o fs0 p content).final.files p = some content ∧
    Before .removeTmp .createNew (safe_write w o fs0 p content).ops ∧
    (∀ fsx : FS, (fsx.files (tempPathOf p)).isSome = true →
      stepCreateNew o fsx (tempPathOf p) = ⟨[(.createNew, fsx)], .fail .createNew, fsx⟩) := by
  obtain ⟨hm, hrt, hcr, hwr, hfl, hsy, hrtg, hrn⟩ := hok
  have hstB : (fs0.files (tempPathOf p)).isSome = true := by
    rw [hst]
    rfl
  have hres : (prepare o fs0 p content).result = .ok := by
    rw [(prepare_ops o fs0 p content).2, hstB, hm, hrt, hcr, hwr, hfl, hsy]
    decide
  have hfin : (prepare o fs0 p content).final.files (tempPathOf p) = some content := by
    rw [(prepare_state o fs0 p content hres).1]
    simp
  have hcommit : (commitStep w o (prepare o fs0 p content).final
      (tempPathOf p) p).result = .ok :=
    commit_result_ok_of content w o _ (tempPathOf p) p hrn hrtg hfin hplat
  refine ⟨?_, ?_, ?_, ?_⟩
  · rw [sw_of_prepare_ok w hres]
    exact hcommit
  · rw [sw_of_prepare_ok w hres]
    show (commitStep w o _ (tempPathOf p) p).final.files p = some content
    rw [(commit_ok w o _ (tempPathOf p) p hcommit).1, hfin]
  · rw [sw_ops_of_prepare_ok w hres]
    have hpre := (prepare_ops o fs0 p content).1
    rw [hstB] at hpre
    rw [hpre]
    refine before_append_left ?_ _
    have hres2 : resPrepB o.mkdirOk o.removeTmpOk o.createOk o.writeOk o.flushOk
        o.syncOk true = .ok := by
      rw [hm, hrt, hcr, hwr, hfl, hsy]
      decide
    exact (opsPrepB_stale_ok _ _ _ _ _ _ hres2).1
  · intro fsx hx
    simp [stepCreateNew, hx]

/-- Witness for c6_amended: a POSIX call on foo.txt with a stale foo.tmp
present. -/
theorem c6_amended_witness :
    ((false = false ∨ tempPathOf fooTxt ≠ fooTxt) ∧ okOracle.allOk ∧
     (oneFileFS fooTmp [9]).files (tempPathOf fooTxt) = some [9]) ∧
    ((safe_write false okOracle (oneFileFS fooTmp [9]) fooTxt [3]).result = .ok ∧
     (safe_write false okOracle (oneFileFS fooTmp [9]) fooTxt [3]).final.files fooTxt
       = some [3] ∧
     Before .removeTmp .createNew
       (safe_write false okOracle (oneFileFS fooTmp [9]) fooTxt [3]).ops ∧
     (∀ fsx : FS, (fsx.files (tempPathOf fooTxt)).isSome = true →
       stepCreateNew okOracle fsx (tempPathOf fooTxt)
         = ⟨[(.createNew, fsx)], .fail .createNew, fsx⟩)) :=
  ⟨⟨Or.inl rfl, ⟨rfl, rfl, rfl, rfl, rfl, rfl, rfl, rfl⟩, by decide⟩,
    c6_amended false okOracle (oneFileFS fooTmp [9]) fooTxt [3] [9] (Or.inl rfl)
      ⟨rfl, rfl, rfl, rfl, rfl, rfl, rfl, rfl⟩ (by decide)⟩

/-- C7: whenever the rename commit is attempted, the durability barrier
(sync_all) and the handle release (drop) occur strictly before it, and at
the moment the durability barrier runs the temporary artifact holds the
full payload: the rename is never attempted unless the payload has been
completely written and synced. -/
theorem c7_durability_order (w : Bool) (o : Oracle) (fs0 : FS) (p : RPath)
    (content : Bytes)
    (h : Step.rename ∈ (safe_write w o fs0 p content).ops) :
    Before .syncAll .rename (safe_write w o fs0 p content).ops ∧
    Before .drop .rename (safe_write w o fs0 p content).ops ∧
    (∃ s, (Step.syncAll, s) ∈ (safe_write w o fs0 p content).trace ∧
      s.files (tempPathOf p) = some content) := by
  rcases hres : (prepare o fs0 p content).result with _ | e
  case fail =>
    exfalso
    rw [sw_of_prepare_fail w hres, (prepare_ops o fs0 p content).1] at h
    exact (opsPrepB_no_commit _ _ _ _ _ _ _).1 h
  case ok =>
    have hops := (prepare_ops o fs0 p content).1
    have hres2 := (prepare_ops o fs0 p content).2
    rw [hres] at hres2
    have hmem := resPrepB_ok_facts _ _ _ _ _ _ _ hres2.symm
    have hrnot : Step.rename ∉ (prepare o fs0 p content).ops := by
      rw [hops]
      exact (opsPrepB_no_commit _ _ _ _ _ _ _).1
    have hsyn : Step.syncAll ∈ (prepare o fs0 p content).ops := by
      rw [hops]
      exact hmem.1
    have hdrp : Step.drop ∈ (prepare o fs0 p content).ops := by
      rw [hops]
      exact hmem.2
    rw [sw_ops_of_prepare_ok w hres] at h
    have hrc : Step.rename ∈
        (commitStep w o (prepare o fs0 p content).final (tempPathOf p) p).ops := by
      rcases List.mem_append.1 h with hl | hl
      · exact absurd hl hrnot
      · exact hl
    have hps := prepare_state o fs0 p content hres
    refine ⟨?_, ?_, ?_⟩
    · rw [sw_ops_of_prepare_ok w hres]
      exact before_append hsyn hrnot hrc
    · rw [sw_ops_of_prepare_ok w hres]
      exact before_append hdrp hrnot hrc
    · refine ⟨(prepare o fs0 p content).final, ?_, ?_⟩
      · rw [sw_of_prepare_ok w hres]
        exact List.mem_append_left _ hps.2.1
      · rw [hps.1]
        simp

/-- Witness for c7_durability_order at a concrete successful call. -/
theorem c7_durability_order_witness :
    Step.rename ∈ (safe_write false okOracle emptyFS fooTxt [4]).ops ∧
    (Before .syncAll .rename (safe_write false okOracle emptyFS fooTxt [4]).ops ∧
     Before .drop .rename (safe_write false okOracle emptyFS fooTxt [4]).ops ∧
     (∃ s, (Step.syncAll, s) ∈ (safe_write false okOracle emptyFS fooTxt [4]).trace ∧
       s.files (tempPathOf fooTxt) = some [4])) :=
  ⟨by decide, c7_durability_order false okOracle emptyFS fooTxt [4] (by decide)⟩

/-- C8: the commit diverges exactly by platform: on the POSIX branch the
commit is the single rename step (the target-removal step never occurs in
any POSIX run, and the rename replaces any existing target in one
indivisible operation); on the Windows branch an existing target is first
explicitly removed — after which the target is absent, the non-atomic
window — and only then is the temporary artifact renamed into place,
while an absent target is committed by the rename alone. -/
theorem c8_commit_divergence (o : Oracle) (fs fs0 : FS) (temp p q : RPath)
    (content : Bytes) :
    Step.removeTarget ∉ (safe_write false o fs0 q content).ops ∧
    commitStep false o fs temp p = stepRename o fs temp p ∧
    (stepRename o fs temp p).ops = [Step.rename] ∧
    ((fs.files p).isSome = true → o.removeTargetOk = true →
      commitStep true o fs temp p =
        ⟨(Step.removeTarget, fs.removeFile p)
            :: (stepRename o (fs.removeFile p) temp p).trace,
          (stepRename o (fs.removeFile p) temp p).result,
          (stepRename o (fs.removeFile p) temp p).final⟩ ∧
      (fs.removeFile p).files p = none) ∧
    ((fs.files p).isSome = false → commitStep true o fs temp p = stepRename o fs temp p) := by
  refine ⟨?_, commit_posix o fs temp p, stepRename_ops o fs temp p, ?_, ?_⟩
  · rcases hres : (prepare o fs0 q content).result with _ | e
    · rw [sw_ops_of_prepare_ok false hres]
      intro hx
      rcases List.mem_append.1 hx with hl | hl
      · rw [(prepare_ops o fs0 q content).1] at hl
        exact (opsPrepB_no_commit _ _ _ _ _ _ _).2 hl
      · rw [commit_posix, stepRename_ops] at hl
        simp at hl
    · rw [sw_of_prepare_fail false hres, (prepare_ops o fs0 q content).1]
      exact (opsPrepB_no_commit _ _ _ _ _ _ _).2
  · intro h1 h2
    exact ⟨commit_windows_remove o fs temp p h1 h2, removeFile_files_self fs p⟩
  · intro h1
    exact commit_windows_fresh o fs temp p h1

/-- Witness for c8_commit_divergence at a concrete state with an existing
target. -/
theorem c8_commit_divergence_witness :
    ((oneFileFS fooTxt [1]).files fooTxt).isSome = true ∧
    okOracle.removeTargetOk = true ∧
    (commitStep true okOracle (oneFileFS fooTxt [1]) fooTmp fooTxt =
      ⟨(Step.removeTarget, (oneFileFS fooTxt [1]).removeFile fooTxt)
          :: (stepRename okOracle ((oneFileFS fooTxt [1]).removeFile fooTxt)
               fooTmp fooTxt).trace,
        (stepRename okOracle ((oneFileFS fooTxt [1]).removeFile fooTxt)
          fooTmp fooTxt).result,
        (stepRename okOracle ((oneFileFS fooTxt [1]).removeFile fooTxt)
          fooTmp fooTxt).final⟩ ∧
     ((oneFileFS fooTxt [1]).removeFile fooTxt).files fooTxt = none) :=
  ⟨by decide, rfl,
    (c8_commit_divergence okOracle (oneFileFS fooTxt [1]) emptyFS fooTmp fooTxt fooTxt
      []).2.2.2.1 (by decide) rfl⟩

/-- C9: every failing step's error is returned immediately and verbatim
as the call's result: no step is ever attempted twice (no retry), and
when the call fails the failing step is the last attempted operation (no
later step runs, no rollback operation is appended). -/
theorem c9_error_propagation (w : Bool) (o : Oracle) (fs0 : FS) (p : RPath)
    (content : Bytes) :
    (safe_write w o fs0 p content).ops.Nodup ∧
    (∀ e, (safe_write w o fs0 p content).result = .fail e →
      (safe_write w o fs0 p content).ops.getLast? = some e) := by
  rcases hres : (prepare o fs0 p content).result with _ | e2
  case fail =>
    rw [sw_of_prepare_fail w hres]
    constructor
    · rw [(prepare_ops o fs0 p content).1]
      exact opsPrepB_nodup _ _ _ _ _ _ _
    · intro e he
      have h2 := (prepare_ops o fs0 p content).2
      rw [he] at h2
      rw [(prepare_ops o fs0 p content).1]
      exact (resPrepB_fail_facts _ _ _ _ _ _ _ e h2.symm).1
  case ok =>
    have hops := (prepare_ops o fs0 p content).1
    constructor
    · rw [sw_ops_of_prepare_ok w hres]
      refine List.nodup_append.2 ⟨?_, ?_, ?_⟩
      · rw [hops]
        exact opsPrepB_nodup _ _ _ _ _ _ _
      · rcases commit_ops w o (prepare o fs0 p content).final (tempPathOf p) p
          with hcs | hcs | hcs <;> rw [hcs] <;> decide
      · intro a ha hb
        rw [hops] at ha
        rcases commit_ops w o (prepare o fs0 p content).final (tempPathOf p) p
          with hcs | hcs | hcs <;> rw [hcs] at hb <;> simp at hb
        · subst hb
          exact (opsPrepB_no_commit _ _ _ _ _ _ _).1 ha
        · subst hb
          exact (opsPrepB_no_commit _ _ _ _ _ _ _).2 ha
        · rcases hb with hb | hb <;> subst hb
          · exact (opsPrepB_no_commit _ _ _ _ _ _ _).2 ha
          · exact (opsPrepB_no_commit _ _ _ _ _ _ _).1 ha
    · intro e he
      rw [sw_of_prepare_ok w hres] at he
      rw [sw_ops_of_prepare_ok w hres]
      have hc := commit_fail w o (prepare o fs0 p content).final (tempPathOf p) p e he
      rw [List.getLast?_append_of_ne_nil _
        (commit_ne_empty w o (prepare o fs0 p content).final (tempPathOf p) p)]
      exact hc.2

/-- Witness for c9_error_propagation at a concrete failing call. -/
theorem c9_error_propagation_witness :
    (safe_write false flushFailOracle emptyFS fooTxt [1]).ops.Nodup ∧
    (safe_write false flushFailOracle emptyFS fooTxt [1]).result = .fail .flush ∧
    (safe_write false flushFailOracle emptyFS fooTxt [1]).ops.getLast? = some .flush :=
  ⟨(c9_error_propagation false flushFailOracle emptyFS fooTxt [1]).1, by decide,
    (c9_error_propagation false flushFailOracle emptyFS fooTxt [1]).2 .flush (by decide)⟩

end SafeWrite
